import Mathlib

/-!
# Verification of the expression-tree core of `rust-expression-parser`

This file gives a shallow embedding, in Lean 4, of the expression-splitting,
tree-building, evaluation and rendering code in `src/node.rs`, and proves (or
refutes) the specification claims about it.

Conventions of the embedding:

* Rust `String` / `&str` values are embedded as `List Char` (abbreviated
  `Str`); Rust's `split`, `join`, `contains`, `trim_end` are embedded as
  executable Lean functions on `List Char` defined below.
* `f64` is not interpreted: the evaluation code is embedded parametrically
  over a `FloatModel`, a structure holding an abstract carrier together with
  the arithmetic operations (`add`, `sub`, `mul`, `div`, `powf`), the literal
  parser (`str::parse::<f64>`), the zero test (`== 0.0`), the `Display`
  formatter, and the one law used by the code paths under study
  (`0.0 == 0.0` is true).  Every theorem about evaluation holds for every
  model, in particular for IEEE doubles; a small executable integer model
  `M0` is used to exercise theorems on concrete inputs.
* Rust `Result<f64, NodeError>` is embedded as the inductive `RustResult`.
-/

set_option maxHeartbeats 1000000

namespace ExprParser

/-- Rust strings, embedded as their character sequences. -/
abbrev Str := List Char

/-! ## Embedding of the Rust string primitives used by `node.rs` -/

/-- Auxiliary for `splitCh`: returns the first chunk and the remaining chunks
of splitting on the separator character. -/
def splitChAux (sep : Char) : Str → Str × List Str
  | [] => ([], [])
  | a :: s =>
    let r := splitChAux sep s
    if a = sep then ([], r.1 :: r.2) else (a :: r.1, r.2)

/-- Embedding of Rust `str::split(sep)` for a one-character separator: the
list of chunks between occurrences of `sep` (empty chunks included, and the
result is never empty — `"".split(sep)` is `[""]`). -/
def splitCh (sep : Char) (s : Str) : List Str :=
  (splitChAux sep s).1 :: (splitChAux sep s).2

/-- Embedding of Rust `[..].join(sep)` / `intercalate` for a one-character
separator. -/
def joinCh (sep : Char) : List Str → Str
  | [] => []
  | [t] => t
  | t :: ts => t ++ sep :: joinCh sep ts

/-- Embedding of Rust `str::contains(pat)`: substring (infix) test. -/
def strContains (s pat : Str) : Bool := decide (List.IsInfix pat s)

/-- Embedding of Rust `str::split("")` (empty pattern): an empty chunk, then
every character as a one-character chunk, then an empty chunk. -/
def splitEmptyPat (s : Str) : List Str :=
  [] :: (s.map (fun c => [c]) ++ [[]])

/-! ## Embedding of `node.rs` -/

/-- The constant `OPERATORS: &str = "+-*/^"`. -/
def OPERATORS : Str := ['+', '-', '*', '/', '^']

/-- The token `"+"`. -/
def plusTok : Str := ['+']

/-- The token `"-"`. -/
def minusTok : Str := ['-']

/-- The token `"*"`. -/
def starTok : Str := ['*']

/-- The token `"/"`. -/
def slashTok : Str := ['/']

/-- The token `"^"`. -/
def caretTok : Str := ['^']

/-- The five operator tokens recognized by the scan in
`split_on_lowest_priority_operator`. -/
def opTokens : List Str := [plusTok, minusTok, starTok, slashTok, caretTok]

/-- Embedding of `has_no_operators`: iterate over `OPERATORS.split("")` and
return `false` as soon as the expression contains one of the produced
patterns.  (Note that `split("")` also produces empty-string patterns.) -/
def has_no_operators (expression : Str) : Bool :=
  !((splitEmptyPat OPERATORS).any (fun operator => strContains expression operator))

/-- Embedding of the token scan (the `for (index, &token) in tokens.iter().enumerate()`
loop of `split_on_lowest_priority_operator`): arguments are the remaining
tokens, the index of the next token, the selected index so far
(`lowest_priority_operator_index`) and `current_priority`. -/
def scanTokens : List Str → Nat → Nat → Nat → Nat
  | [], _, best, _ => best
  | t :: ts, i, best, prio =>
    if t = plusTok ∨ t = minusTok then i
    else if t = starTok ∨ t = slashTok then
      if prio > 2 then scanTokens ts (i + 1) i 2 else scanTokens ts (i + 1) best prio
    else if t = caretTok then
      if prio > 3 then scanTokens ts (i + 1) i 3 else scanTokens ts (i + 1) best prio
    else scanTokens ts (i + 1) best prio

/-- Embedding of `split_on_lowest_priority_operator`.  The middle branch
(`lowest_priority_operator_index == tokens.len()`) is unreachable (the scan
always yields an index `< tokens.len()`, see `scanTokens_zero_or_lt` below);
there Rust's `tokens[i]` would panic, which we render harmlessly as the
`getD` default. -/
def split_on_lowest_priority_operator (expression : Str) : Str × Str × Str :=
  if has_no_operators expression then (expression, [], [])
  else
    let tokens := splitCh ' ' expression
    let i := scanTokens tokens 0 0 4
    if i = 0 then
      (tokens.getD 0 [], [], joinCh ' ' (tokens.drop 1))
    else if i = tokens.length then
      (tokens.getD i [], joinCh ' ' tokens.dropLast, [])
    else
      (tokens.getD i [], joinCh ' ' (tokens.take i), joinCh ' ' (tokens.drop (i + 1)))

/-! ## The abstract model of `f64`

The evaluation code is embedded parametrically over the double-precision
operations it uses; they stay uninterpreted, so every theorem below holds
for the real IEEE semantics. -/

/-- The `f64` operations used by `node.rs`: the carrier, `str::parse::<f64>`,
the five arithmetic operations, the literal `0.0`, the test `== 0.0`, the
`Display` formatting, and the one floating-point law the code paths rely on
(`0.0 == 0.0` holds). -/
structure FloatModel where
  F : Type
  parse : Str → Option F
  add : F → F → F
  sub : F → F → F
  mul : F → F → F
  div : F → F → F
  powf : F → F → F
  zero : F
  eqZero : F → Bool
  fmt : F → Str
  eqZero_zero : eqZero zero = true

/-- Embedding of `enum NodeError`. -/
inductive NodeError where
  | InvalidExpression (msg : Str)
  | DivideByZero
  deriving DecidableEq

/-- Embedding of Rust `Result<F, NodeError>`. -/
inductive RustResult (F : Type) where
  | Ok (val : F)
  | Err (err : NodeError)
  deriving DecidableEq

/-- Embedding of `struct Node { value, l_child, r_child }` (children are
`Option<Box<Node>>`). -/
inductive Node where
  | mk (value : Str) (l_child : Option Node) (r_child : Option Node)

/-- The `value` field. -/
def Node.value : Node → Str
  | .mk v _ _ => v

/-- The `l_child` field. -/
def Node.l_child : Node → Option Node
  | .mk _ l _ => l

/-- The `r_child` field. -/
def Node.r_child : Node → Option Node
  | .mk _ _ r => r

/-- Embedding of `Node::has_children`. -/
def Node.has_children : Node → Bool
  | .mk _ none none => false
  | _ => true

/-- Embedding of `Node::from_expression`, with explicit recursion depth; any
depth exceeding the expression length computes the Rust recursion (proved in
`from_expression_fuel_congr` below, using that both remainders returned by
the splitter are strictly shorter than the input). -/
def from_expression_fuel : Nat → Str → Node
  | 0, expression => Node.mk expression none none
  | fuel + 1, expression =>
    match split_on_lowest_priority_operator expression with
    | (operator, l_expression, r_expression) =>
      Node.mk operator
        (if l_expression = [] then none
         else some (from_expression_fuel fuel l_expression))
        (if r_expression = [] then none
         else some (from_expression_fuel fuel r_expression))

/-- Embedding of `Node::from_expression` (see `from_expression_eq` for the
recursion equation it satisfies, which matches the Rust source). -/
def from_expression (expression : Str) : Node :=
  from_expression_fuel (expression.length + 1) expression

/-- Embedding of `Node::execute_operation`. -/
def execute_operation (M : FloatModel) (operator : Str) (l_operand r_operand : M.F) :
    RustResult M.F :=
  if operator = plusTok then .Ok (M.add l_operand r_operand)
  else if operator = minusTok then .Ok (M.sub l_operand r_operand)
  else if operator = starTok then .Ok (M.mul l_operand r_operand)
  else if operator = slashTok then
    if M.eqZero r_operand then .Err .DivideByZero
    else .Ok (M.div l_operand r_operand)
  else if operator = caretTok then .Ok (M.powf l_operand r_operand)
  else .Err (.InvalidExpression (M.fmt l_operand ++ ' ' :: (operator ++ ' ' :: M.fmt r_operand)))

/-- Embedding of the leaf case of `Node::evaluate`:
`self.value.parse::<f64>().map_err(|_| InvalidExpression(value))`. -/
def parseLeaf (M : FloatModel) (value : Str) : RustResult M.F :=
  match M.parse value with
  | none => .Err (.InvalidExpression value)
  | some v => .Ok v

/-- Embedding of the early-return pattern of `Node::evaluate`:
`match res { Ok(op) => op, Err(err) => return Err(err) }` — the rest of the
function body is the continuation. -/
def bindResult {F : Type} (res : RustResult F) (k : F → RustResult F) : RustResult F :=
  match res with
  | .Err err => .Err err
  | .Ok val => k val

/-- Depth-indexed version of `Node::evaluate`, used to run evaluations by
kernel reduction; any depth of at least `sizeOf` the node agrees with
`Node.evaluate` (theorem `evaluate_eq_fuel` below). -/
def evaluateFuel (M : FloatModel) : Nat → Node → RustResult M.F
  | 0, _ => .Err .DivideByZero
  | fuel + 1, .mk value l_child r_child =>
    if (Node.mk value l_child r_child).has_children = false then
      parseLeaf M value
    else
      bindResult (match l_child with
                  | none => RustResult.Ok M.zero
                  | some c => evaluateFuel M fuel c) (fun l_operand =>
      bindResult (match r_child with
                  | none => RustResult.Ok M.zero
                  | some c => evaluateFuel M fuel c) (fun r_operand =>
        execute_operation M value l_operand r_operand))

/-- Embedding of `Node::evaluate`: leaves parse their value; internal nodes
evaluate the left operand (defaulting a missing child to `0.0`, returning
early on error), then the right operand likewise, then apply the operator. -/
def Node.evaluate (M : FloatModel) : Node → RustResult M.F
  | .mk value l_child r_child =>
    if (Node.mk value l_child r_child).has_children = false then
      parseLeaf M value
    else
      bindResult (match l_child with
                  | none => RustResult.Ok M.zero
                  | some c => c.evaluate M) (fun l_operand =>
      bindResult (match r_child with
                  | none => RustResult.Ok M.zero
                  | some c => c.evaluate M) (fun r_operand =>
        execute_operation M value l_operand r_operand))
termination_by n => sizeOf n

/-- The operand of an optional child in `Node::evaluate`: a missing child
contributes `0.0`, a present child contributes its evaluation. -/
def evalChild (M : FloatModel) : Option Node → RustResult M.F
  | none => .Ok M.zero
  | some c => c.evaluate M

/-! ## Embedding of `Node::to_string` -/

/-- Rust `char::is_whitespace` on the characters that can occur here
(the ASCII whitespace characters). -/
def rustIsWhitespace (c : Char) : Bool :=
  c = ' ' ∨ c = '\t' ∨ c = '\n' ∨ c = '\r' ∨ c = '\x0b' ∨ c = '\x0c'

/-- Embedding of Rust `str::trim_end`. -/
def rustTrimEnd (s : Str) : Str :=
  (s.reverse.dropWhile rustIsWhitespace).reverse

/-- The prefix `"|-- "` put before the first row of a left child. -/
def l_first_prefix : Str := "|-- ".toList

/-- The prefix `"|   "` put before the later rows of a left child. -/
def l_rest_prefix : Str := "|   ".toList

/-- The prefix `` "`-- " `` put before the first row of a right (or only)
child. -/
def r_first_prefix : Str := "`-- ".toList

/-- The prefix `"    "` put before the later rows of a right (or only)
child. -/
def r_rest_prefix : Str := "    ".toList

/-- The rows after the first in the row-prefixing loops of
`Node::to_string`: each row is preceded by the rest-prefix and followed by a
newline. -/
def prefixRest (rest : Str) : List Str → Str
  | [] => []
  | row :: rows => rest ++ row ++ '\n' :: prefixRest rest rows

/-- One row-prefixing loop of `Node::to_string` (`for i in 0..rows.len()`):
the row at index `0` gets the first-prefix, later rows the rest-prefix, and
every row is followed by a newline. -/
def prefixLoop (first rest : Str) : List Str → Str
  | [] => []
  | row :: rows => first ++ row ++ '\n' :: prefixRest rest rows

/-- Depth-indexed version of `Node::to_string`, used to run renderings by
kernel reduction; any depth of at least `sizeOf` the node agrees with
`Node.to_string` (theorem `to_string_eq_fuel` below). -/
def to_stringFuel : Nat → Node → Str
  | 0, _ => []
  | fuel + 1, .mk value l_child r_child =>
    let result := value ++ (if (Node.mk value l_child r_child).has_children then ['\n'] else [])
    match l_child with
    | some lc =>
      let l_child_rows := splitCh '\n' (rustTrimEnd (to_stringFuel fuel lc))
      match r_child with
      | some rc =>
        let r_child_rows := splitCh '\n' (rustTrimEnd (to_stringFuel fuel rc))
        result ++ prefixLoop l_first_prefix l_rest_prefix l_child_rows
               ++ prefixLoop r_first_prefix r_rest_prefix r_child_rows
      | none =>
        result ++ prefixLoop r_first_prefix r_rest_prefix l_child_rows
    | none => result

/-- Embedding of `Node::to_string`. -/
def Node.to_string : Node → Str
  | .mk value l_child r_child =>
    let result := value ++ (if (Node.mk value l_child r_child).has_children then ['\n'] else [])
    match l_child with
    | some lc =>
      let l_child_rows := splitCh '\n' (rustTrimEnd lc.to_string)
      match r_child with
      | some rc =>
        let r_child_rows := splitCh '\n' (rustTrimEnd rc.to_string)
        result ++ prefixLoop l_first_prefix l_rest_prefix l_child_rows
               ++ prefixLoop r_first_prefix r_rest_prefix r_child_rows
      | none =>
        result ++ prefixLoop r_first_prefix r_rest_prefix l_child_rows
    | none => result
termination_by n => sizeOf n

/-! ## A concrete executable model

`M0` instantiates the abstract `f64` interface with integers and a
digits-only literal parser; it is used to run the theorems on concrete
inputs. -/

/-- Value of a digit string. -/
def digitsVal (s : Str) : Nat :=
  s.foldl (fun acc c => acc * 10 + (c.toNat - 48)) 0

/-- A concrete instance of the `f64` interface over `Int` (the operations
stand in for the IEEE ones; `powf` is integer exponentiation). -/
def M0 : FloatModel where
  F := Int
  parse := fun s => if s ≠ [] ∧ s.all (fun c => c.isDigit) then some (digitsVal s : Int) else none
  add := fun a b => a + b
  sub := fun a b => a - b
  mul := fun a b => a * b
  div := fun a b => a / b
  powf := fun a b => a ^ b.toNat
  zero := 0
  eqZero := fun x => x == 0
  fmt := fun x => (toString x).toList
  eqZero_zero := by decide

instance : DecidableEq M0.F := inferInstanceAs (DecidableEq Int)

instance (n : Nat) : OfNat M0.F n := inferInstanceAs (OfNat Int n)

/-! ## Specification-side definitions

These follow the wording of the specification (not the code); theorems
below compare them with the embedded code. -/

/-- A `+` or `-` token (the lowest-priority tier of the scan). -/
def isAddSub (t : Str) : Bool := t = plusTok || t = minusTok

/-- A `*` or `/` token (the middle-priority tier of the scan). -/
def isMulDiv (t : Str) : Bool := t = starTok || t = slashTok

/-- A `^` token (the highest-priority tier of the scan). -/
def isPow (t : Str) : Bool := t = caretTok

/-- Index of the leftmost token satisfying `p`, if any. -/
def firstIdx (p : Str → Bool) : List Str → Option Nat
  | [] => none
  | t :: ts => if p t then some 0 else (firstIdx p ts).map (· + 1)

/-- The specification's description of the scan's selection policy: the
leftmost `+`/`-` token wins; otherwise the leftmost `*`/`/` token; otherwise
the leftmost `^` token; otherwise index `0`. -/
def scanSpec (tokens : List Str) : Nat :=
  match firstIdx isAddSub tokens with
  | some i => i
  | none =>
    match firstIdx isMulDiv tokens with
    | some i => i
    | none =>
      match firstIdx isPow tokens with
      | some i => i
      | none => 0

/-- The specification's "native arithmetic result" of applying an operator
token to two operands (`^` is floating-point power). -/
def spec_nativeResult (M : FloatModel) (op : Str) (x y : M.F) : M.F :=
  if op = plusTok then M.add x y
  else if op = minusTok then M.sub x y
  else if op = starTok then M.mul x y
  else if op = slashTok then M.div x y
  else M.powf x y

/-- Modelled from the spec: the character-level operator check the
specification describes for the splitter's leaf test ("contains none of the
five operator characters anywhere").  The code's `has_no_operators` is
compared against this. -/
def spec_has_no_operators (expression : Str) : Bool :=
  OPERATORS.all (fun c => !(expression.contains c))

/-- The specification's description of one rendered child block: the child's
trimmed rendering is split into rows; the first row gets `first` as prefix,
every later row gets `rest`, and every row is newline-terminated. -/
def spec_childBlock (first rest : Str) (child : Node) : Str :=
  match splitCh '\n' (rustTrimEnd child.to_string) with
  | [] => []
  | r0 :: rs => (first ++ r0 ++ ['\n']) ++ (rs.map (fun row => rest ++ row ++ ['\n'])).flatten

/-- Every `value` in the tree is free of space characters (the invariant of
construction stated by the spec). -/
inductive NoSpaceValues : Node → Prop
  | mk (v : Str) (l r : Option Node) :
      ' ' ∉ v →
      (∀ c, l = some c → NoSpaceValues c) →
      (∀ c, r = some c → NoSpaceValues c) →
      NoSpaceValues (Node.mk v l r)

/-- Neither source of `InvalidExpression` occurs anywhere in the tree: every
leaf's value parses as a number and every node with a child carries one of
the five operator tokens. -/
inductive WellFormed (M : FloatModel) : Node → Prop
  | leaf (v : Str) : (M.parse v).isSome → WellFormed M (Node.mk v none none)
  | node (v : Str) (l r : Option Node) :
      ¬(l = none ∧ r = none) →
      v ∈ opTokens →
      (∀ c, l = some c → WellFormed M c) →
      (∀ c, r = some c → WellFormed M c) →
      WellFormed M (Node.mk v l r)

/-! ## Lemmas about the string primitives -/

theorem splitChAux_cons (sep a : Char) (s : Str) :
    splitChAux sep (a :: s) =
      if a = sep then ([], (splitChAux sep s).1 :: (splitChAux sep s).2)
      else (a :: (splitChAux sep s).1, (splitChAux sep s).2) := by
  simp [splitChAux]

theorem splitCh_cons_sep (sep : Char) (s : Str) :
    splitCh sep (sep :: s) = [] :: splitCh sep s := by
  simp [splitCh, splitChAux_cons]

theorem splitCh_cons_ne (sep a : Char) (s : Str) (h : a ≠ sep) :
    splitCh sep (a :: s) =
      (a :: (splitChAux sep s).1) :: (splitChAux sep s).2 := by
  simp [splitCh, splitChAux_cons, h]

theorem joinCh_cons (sep : Char) (t : Str) (ts : List Str) :
    joinCh sep (t :: ts) = t ++ (if ts = [] then [] else sep :: joinCh sep ts) := by
  cases ts <;> simp [joinCh]

theorem joinCh_splitCh (sep : Char) (s : Str) : joinCh sep (splitCh sep s) = s := by
  induction s with
  | nil => rfl
  | cons a s ih =>
    by_cases h : a = sep
    · subst h
      rw [splitCh_cons_sep, joinCh_cons]
      simp only [splitCh] at ih ⊢
      simp [ih]
    · rw [splitCh_cons_ne sep a s h]
      simp only [splitCh] at ih
      rw [joinCh_cons] at ih ⊢
      cases h2 : (splitChAux sep s).2 with
      | nil => simpa [h2] using congrArg (a :: ·) (by simpa [h2] using ih)
      | cons u us =>
        simp only [h2] at ih ⊢
        simpa using congrArg (a :: ·) ih

theorem splitCh_of_not_mem (sep : Char) (s : Str) (h : sep ∉ s) :
    splitCh sep s = [s] := by
  induction s with
  | nil => rfl
  | cons a s ih =>
    have ha : a ≠ sep := by rintro rfl; exact h (List.mem_cons_self _ _)
    have hs : sep ∉ s := fun hm => h (List.mem_cons_of_mem _ hm)
    rw [splitCh_cons_ne sep a s ha]
    have hthis := ih hs
    simp only [splitCh] at hthis
    obtain ⟨h1, h2⟩ := List.cons.inj hthis
    rw [h1, h2]

theorem splitCh_append_cons (sep : Char) (a rest : Str) (h : sep ∉ a) :
    splitCh sep (a ++ sep :: rest) = a :: splitCh sep rest := by
  induction a with
  | nil => simpa using splitCh_cons_sep sep rest
  | cons c a ih =>
    have hc : c ≠ sep := by rintro rfl; exact h (List.mem_cons_self _ _)
    have ha : sep ∉ a := fun hm => h (List.mem_cons_of_mem _ hm)
    have hrec := ih ha
    conv_lhs at hrec => rw [splitCh]
    obtain ⟨e1, e2⟩ := List.cons.inj hrec
    rw [List.cons_append, splitCh_cons_ne sep c _ hc, e1, e2]

theorem not_mem_of_mem_splitCh (sep : Char) (s : Str) (t : Str)
    (ht : t ∈ splitCh sep s) : sep ∉ t := by
  induction s generalizing t with
  | nil =>
    simp only [splitCh, splitChAux] at ht
    simp at ht
    simp [ht]
  | cons a s ih =>
    by_cases h : a = sep
    · subst h
      rw [splitCh_cons_sep] at ht
      rcases List.mem_cons.1 ht with h1 | h1
      · simp [h1]
      · exact ih t h1
    · rw [splitCh_cons_ne sep a s h] at ht
      rcases List.mem_cons.1 ht with h1 | h1
      · subst h1
        intro hmem
        rcases List.mem_cons.1 hmem with h2 | h2
        · exact h h2.symm
        · exact ih (splitChAux sep s).1 (by simp [splitCh]) h2
      · exact ih t (by simp [splitCh, h1])

theorem joinCh_take_drop (sep : Char) (ts : List Str) (i : Nat) (h1 : 0 < i)
    (h2 : i < ts.length) :
    joinCh sep ts = joinCh sep (ts.take i) ++ sep :: joinCh sep (ts.drop i) := by
  induction ts generalizing i with
  | nil => simp at h2
  | cons t ts ih =>
    match i, h1 with
    | 1, _ =>
      have hts : ts ≠ [] := by
        refine List.ne_nil_of_length_pos ?_
        simpa using h2
      rw [joinCh_cons sep t ts, if_neg hts]
      simp [joinCh]
    | (j + 2), _ =>
      have hlen : j + 1 < ts.length := by
        simp only [List.length_cons] at h2
        omega
      have hts : ts ≠ [] := List.ne_nil_of_length_pos (Nat.lt_of_le_of_lt (Nat.zero_le _) hlen)
      have htake : ts.take (j + 1) ≠ [] := by
        refine List.ne_nil_of_length_pos ?_
        rw [List.length_take]
        exact lt_min (Nat.succ_pos j) (Nat.lt_of_le_of_lt (Nat.zero_le _) hlen)
      rw [show (t :: ts).take (j + 2) = t :: ts.take (j + 1) from rfl,
        show (t :: ts).drop (j + 2) = ts.drop (j + 1) from rfl,
        joinCh_cons sep t ts, if_neg hts, ih (j + 1) (Nat.succ_pos j) hlen,
        joinCh_cons sep t (ts.take (j + 1)), if_neg htake]
      simp

theorem joinCh_append_last (sep : Char) (ts : List Str) (t : Str) (h : ts ≠ []) :
    joinCh sep (ts ++ [t]) = joinCh sep ts ++ sep :: t := by
  induction ts with
  | nil => simp at h
  | cons u us ih =>
    cases us with
    | nil => simp [joinCh]
    | cons v vs =>
      have h2 : (v :: vs : List Str) ≠ [] := by simp
      have h3 : ((v :: vs) ++ [t] : List Str) ≠ [] := by simp
      rw [show (u :: v :: vs) ++ [t] = u :: ((v :: vs) ++ [t]) from rfl,
        joinCh_cons sep u ((v :: vs) ++ [t]), if_neg h3, ih h2,
        joinCh_cons sep u (v :: vs), if_neg h2]
      simp

/-- `has_no_operators` returns `false` on every input: the operator list it
iterates over comes from `split("")`, which also yields empty-string
patterns, and every string contains the empty string. -/
theorem has_no_operators_false (e : Str) : has_no_operators e = false := by
  simp only [has_no_operators, splitEmptyPat, List.any_cons, strContains, Bool.not_eq_false']
  have h : List.IsInfix ([] : Str) e := List.nil_infix
  simp [h]

theorem firstIdx_lt_length (p : Str → Bool) (ts : List Str) (j : Nat)
    (h : firstIdx p ts = some j) : j < ts.length := by
  induction ts generalizing j with
  | nil => simp [firstIdx] at h
  | cons t ts ih =>
    rw [firstIdx] at h
    split at h
    · have hj : j = 0 := by
        injection h with h
        omega
      subst hj
      simp
    · cases h2 : firstIdx p ts with
      | none => rw [h2] at h; simp at h
      | some j' =>
        rw [h2] at h
        have hj : j = j' + 1 := by
          simp only [Option.map_some'] at h
          injection h with h
          omega
        subst hj
        have := ih j' h2
        simp only [List.length_cons]
        omega

theorem firstIdx_cons_pos (p : Str → Bool) (t : Str) (ts : List Str) (h : p t = true) :
    firstIdx p (t :: ts) = some 0 := by
  simp [firstIdx, h]

theorem firstIdx_cons_neg (p : Str → Bool) (t : Str) (ts : List Str) (h : p t = false) :
    firstIdx p (t :: ts) = (firstIdx p ts).map (· + 1) := by
  simp [firstIdx, h]

/-- Characterization of the scan loop for each of the three reachable values
of `current_priority` (`4`: nothing selected; `3`: a `^` selected; `2`: a
`*`/`/` selected): the result is the offset index of the leftmost `+`/`-`;
otherwise, while no `*`/`/` is selected yet, the offset index of the leftmost
`*`/`/`; otherwise, while nothing is selected yet, the offset index of the
leftmost `^`; otherwise the selected index so far. -/
theorem scanTokens_spec (ts : List Str) : ∀ i best : Nat,
    (scanTokens ts i best 4 = (match firstIdx isAddSub ts with
       | some j => i + j
       | none => (match firstIdx isMulDiv ts with
         | some j => i + j
         | none => (match firstIdx isPow ts with
           | some j => i + j
           | none => best)))) ∧
    (scanTokens ts i best 3 = (match firstIdx isAddSub ts with
       | some j => i + j
       | none => (match firstIdx isMulDiv ts with
         | some j => i + j
         | none => best))) ∧
    (scanTokens ts i best 2 = (match firstIdx isAddSub ts with
       | some j => i + j
       | none => best)) := by
  induction ts with
  | nil =>
    intro i best
    refine ⟨?_, ?_, ?_⟩ <;> simp [scanTokens, firstIdx]
  | cons t ts ih =>
    intro i best
    by_cases ha : t = plusTok ∨ t = minusTok
    · have h1 : isAddSub t = true := by
        rcases ha with h | h <;> simp [isAddSub, h]
      refine ⟨?_, ?_, ?_⟩ <;>
        rw [scanTokens, if_pos ha, firstIdx_cons_pos _ _ _ h1] <;> simp
    · push_neg at ha
      obtain ⟨ha1, ha2⟩ := ha
      have hA : ¬(t = plusTok ∨ t = minusTok) := not_or.mpr ⟨ha1, ha2⟩
      have h1 : isAddSub t = false := by simp [isAddSub, ha1, ha2]
      by_cases hm : t = starTok ∨ t = slashTok
      · have h2 : isMulDiv t = true := by
          rcases hm with h | h <;> simp [isMulDiv, h]
        refine ⟨?_, ?_, ?_⟩
        · rw [scanTokens, if_neg hA, if_pos hm, if_pos (by omega : (4 : Nat) > 2),
            (ih (i + 1) i).2.2, firstIdx_cons_neg _ _ _ h1, firstIdx_cons_pos _ _ _ h2]
          cases hfa : firstIdx isAddSub ts <;> simp [hfa] <;> ring
        · rw [scanTokens, if_neg hA, if_pos hm, if_pos (by omega : (3 : Nat) > 2),
            (ih (i + 1) i).2.2, firstIdx_cons_neg _ _ _ h1, firstIdx_cons_pos _ _ _ h2]
          cases hfa : firstIdx isAddSub ts <;> simp [hfa] <;> ring
        · rw [scanTokens, if_neg hA, if_pos hm, if_neg (by omega : ¬((2 : Nat) > 2)),
            (ih (i + 1) best).2.2, firstIdx_cons_neg _ _ _ h1]
          cases hfa : firstIdx isAddSub ts <;> simp [hfa] <;> ring
      · push_neg at hm
        obtain ⟨hm1, hm2⟩ := hm
        have hM : ¬(t = starTok ∨ t = slashTok) := not_or.mpr ⟨hm1, hm2⟩
        have h2 : isMulDiv t = false := by simp [isMulDiv, hm1, hm2]
        by_cases hp : t = caretTok
        · have h3 : isPow t = true := by simp [isPow, hp]
          refine ⟨?_, ?_, ?_⟩
          · rw [scanTokens, if_neg hA, if_neg hM, if_pos hp, if_pos (by omega : (4 : Nat) > 3),
              (ih (i + 1) i).2.1, firstIdx_cons_neg _ _ _ h1, firstIdx_cons_neg _ _ _ h2,
              firstIdx_cons_pos _ _ _ h3]
            cases hfa : firstIdx isAddSub ts <;>
              cases hfm : firstIdx isMulDiv ts <;> simp [hfa, hfm] <;> ring
          · rw [scanTokens, if_neg hA, if_neg hM, if_pos hp, if_neg (by omega : ¬((3 : Nat) > 3)),
              (ih (i + 1) best).2.1, firstIdx_cons_neg _ _ _ h1, firstIdx_cons_neg _ _ _ h2]
            cases hfa : firstIdx isAddSub ts <;>
              cases hfm : firstIdx isMulDiv ts <;> simp [hfa, hfm] <;> ring
          · rw [scanTokens, if_neg hA, if_neg hM, if_pos hp, if_neg (by omega : ¬((2 : Nat) > 3)),
              (ih (i + 1) best).2.2, firstIdx_cons_neg _ _ _ h1]
            cases hfa : firstIdx isAddSub ts <;> simp [hfa] <;> ring
        · have h3 : isPow t = false := by simp [isPow, hp]
          refine ⟨?_, ?_, ?_⟩
          · rw [scanTokens, if_neg hA, if_neg hM, if_neg hp,
              (ih (i + 1) best).1, firstIdx_cons_neg _ _ _ h1, firstIdx_cons_neg _ _ _ h2,
              firstIdx_cons_neg _ _ _ h3]
            cases hfa : firstIdx isAddSub ts <;>
              cases hfm : firstIdx isMulDiv ts <;>
                cases hfp : firstIdx isPow ts <;> simp [hfa, hfm, hfp] <;> ring
          · rw [scanTokens, if_neg hA, if_neg hM, if_neg hp,
              (ih (i + 1) best).2.1, firstIdx_cons_neg _ _ _ h1, firstIdx_cons_neg _ _ _ h2]
            cases hfa : firstIdx isAddSub ts <;>
              cases hfm : firstIdx isMulDiv ts <;> simp [hfa, hfm] <;> ring
          · rw [scanTokens, if_neg hA, if_neg hM, if_neg hp,
              (ih (i + 1) best).2.2, firstIdx_cons_neg _ _ _ h1]
            cases hfa : firstIdx isAddSub ts <;> simp [hfa] <;> ring

/-- The scan as called by the splitter realizes the specification's
selection policy. -/
theorem scanTokens_eq_scanSpec (ts : List Str) : scanTokens ts 0 0 4 = scanSpec ts := by
  rw [(scanTokens_spec ts 0 0).1, scanSpec]
  cases h1 : firstIdx isAddSub ts <;>
    cases h2 : firstIdx isMulDiv ts <;>
      cases h3 : firstIdx isPow ts <;> simp [h1, h2, h3]

/-- The scan yields `0` or an index within the token list. -/
theorem scanTokens_zero_or_lt (ts : List Str) :
    scanTokens ts 0 0 4 = 0 ∨ scanTokens ts 0 0 4 < ts.length := by
  rw [scanTokens_eq_scanSpec, scanSpec]
  cases h1 : firstIdx isAddSub ts with
  | some j => exact Or.inr (firstIdx_lt_length _ _ _ h1)
  | none =>
    cases h2 : firstIdx isMulDiv ts with
    | some j => exact Or.inr (firstIdx_lt_length _ _ _ h2)
    | none =>
      cases h3 : firstIdx isPow ts with
      | some j => exact Or.inr (firstIdx_lt_length _ _ _ h3)
      | none => exact Or.inl rfl

/-- Both remainders returned by the splitter are strictly shorter than the
input expression (whenever non-empty); this is what makes the recursion in
`from_expression` well defined. -/
theorem split_parts_shorter (e : Str) :
    ((split_on_lowest_priority_operator e).2.1 ≠ [] →
      (split_on_lowest_priority_operator e).2.1.length < e.length) ∧
    ((split_on_lowest_priority_operator e).2.2 ≠ [] →
      (split_on_lowest_priority_operator e).2.2.length < e.length) := by
  rw [split_on_lowest_priority_operator]
  simp only [has_no_operators_false e, Bool.false_eq_true, if_false]
  have hjoin : joinCh ' ' (splitCh ' ' e) = e := joinCh_splitCh ' ' e
  have hbound := scanTokens_zero_or_lt (splitCh ' ' e)
  by_cases hI : scanTokens (splitCh ' ' e) 0 0 4 = 0
  · rw [if_pos hI]
    refine ⟨fun h => absurd rfl h, fun h => ?_⟩
    simp only at h ⊢
    have htr : splitCh ' ' e = (splitChAux ' ' e).1 :: (splitChAux ' ' e).2 := rfl
    rw [htr] at hjoin h ⊢
    simp only [List.drop_succ_cons, List.drop_zero] at h ⊢
    have hrest : (splitChAux ' ' e).2 ≠ [] := by
      rintro hnil
      rw [hnil] at h
      exact h rfl
    rw [joinCh_cons, if_neg hrest] at hjoin
    have hlen := congrArg List.length hjoin
    simp only [List.length_append, List.length_cons] at hlen
    omega
  · by_cases hL : scanTokens (splitCh ' ' e) 0 0 4 = (splitCh ' ' e).length
    · rw [if_neg hI, if_pos hL]
      refine ⟨fun h => ?_, fun h => absurd rfl h⟩
      simp only at h ⊢
      have hdl : (splitCh ' ' e).dropLast ≠ [] := by
        rintro hnil
        rw [hnil] at h
        exact h rfl
      have htok_ne : splitCh ' ' e ≠ [] := by
        intro hnil
        exact List.cons_ne_nil _ _ (by rw [← hnil] : splitCh ' ' e = _)
      have hdecomp : (splitCh ' ' e).dropLast ++ [(splitCh ' ' e).getLast htok_ne] =
          splitCh ' ' e := List.dropLast_append_getLast htok_ne
      rw [← hdecomp, joinCh_append_last ' ' _ _ hdl] at hjoin
      have hlen := congrArg List.length hjoin
      simp only [List.length_append, List.length_cons] at hlen
      omega
    · rw [if_neg hI, if_neg hL]
      have hlt : scanTokens (splitCh ' ' e) 0 0 4 < (splitCh ' ' e).length :=
        hbound.resolve_left hI
      have hpos : 0 < scanTokens (splitCh ' ' e) 0 0 4 := Nat.pos_of_ne_zero hI
      have hsplit := joinCh_take_drop ' ' (splitCh ' ' e) _ hpos hlt
      refine ⟨fun _ => ?_, fun h => ?_⟩
      · simp only
        have hlen := congrArg List.length (hsplit.symm.trans hjoin)
        simp only [List.length_append, List.length_cons] at hlen
        omega
      · simp only at h ⊢
        have hdropne : (splitCh ' ' e).drop (scanTokens (splitCh ' ' e) 0 0 4 + 1) ≠ [] := by
          rintro hnil
          rw [hnil] at h
          exact h rfl
        rw [List.drop_eq_getElem_cons hlt, joinCh_cons, if_neg hdropne] at hsplit
        have hlen := congrArg List.length (hsplit.symm.trans hjoin)
        simp only [List.length_append, List.length_cons] at hlen
        omega

/-- Any sufficient recursion depth computes the same tree. -/
theorem from_expression_fuel_congr : ∀ (f1 f2 : Nat) (e : Str),
    e.length < f1 → e.length < f2 →
    from_expression_fuel f1 e = from_expression_fuel f2 e := by
  intro f1
  induction f1 with
  | zero => exact fun f2 e h1 _ => absurd h1 (Nat.not_lt_zero _)
  | succ f1 ih =>
    intro f2 e h1 h2
    cases f2 with
    | zero => exact absurd h2 (Nat.not_lt_zero _)
    | succ f2 =>
      rw [from_expression_fuel, from_expression_fuel]
      have hl := (split_parts_shorter e).1
      have hr := (split_parts_shorter e).2
      set res := split_on_lowest_priority_operator e with hres
      obtain ⟨op, l, r⟩ := res
      simp only at hl hr ⊢
      congr 1
      · by_cases h : l = []
        · rw [if_pos h, if_pos h]
        · rw [if_neg h, if_neg h]
          have hlen := hl h
          exact congrArg some (ih f2 l (by omega) (by omega))
      · by_cases h : r = []
        · rw [if_pos h, if_pos h]
        · rw [if_neg h, if_neg h]
          have hlen := hr h
          exact congrArg some (ih f2 r (by omega) (by omega))

/-- `from_expression` satisfies exactly the recursion of the Rust source:
split the expression, recurse on each non-empty remainder. -/
theorem from_expression_eq (e : Str) :
    from_expression e =
      (match split_on_lowest_priority_operator e with
       | (operator, l_expression, r_expression) =>
         Node.mk operator
           (if l_expression = [] then none else some (from_expression l_expression))
           (if r_expression = [] then none else some (from_expression r_expression))) := by
  rw [from_expression, from_expression_fuel]
  have hl := (split_parts_shorter e).1
  have hr := (split_parts_shorter e).2
  set res := split_on_lowest_priority_operator e with hres
  obtain ⟨op, l, r⟩ := res
  simp only at hl hr ⊢
  congr 1
  · by_cases h : l = []
    · rw [if_pos h, if_pos h]
    · rw [if_neg h, if_neg h]
      have hlen := hl h
      exact congrArg some (from_expression_fuel_congr _ _ l (by omega) (Nat.lt_succ_self _))
  · by_cases h : r = []
    · rw [if_pos h, if_pos h]
    · rw [if_neg h, if_neg h]
      have hlen := hr h
      exact congrArg some (from_expression_fuel_congr _ _ r (by omega) (Nat.lt_succ_self _))

/-- A space-free token that is not an operator token is returned whole by
the splitter, with both remainders empty. -/
theorem split_single_token (t : Str) (h1 : ' ' ∉ t) (h2 : t ∉ opTokens) :
    split_on_lowest_priority_operator t = (t, [], []) := by
  have hmem : t ≠ plusTok ∧ t ≠ minusTok ∧ t ≠ starTok ∧ t ≠ slashTok ∧ t ≠ caretTok := by
    simp [opTokens] at h2
    exact h2
  obtain ⟨n1, n2, n3, n4, n5⟩ := hmem
  rw [split_on_lowest_priority_operator]
  simp only [has_no_operators_false, Bool.false_eq_true, if_false]
  rw [splitCh_of_not_mem ' ' t h1]
  have hsc : scanTokens [t] 0 0 4 = 0 := by
    rw [scanTokens, if_neg (not_or.mpr ⟨n1, n2⟩), if_neg (not_or.mpr ⟨n3, n4⟩), if_neg n5]
    rfl
  simp [hsc, joinCh]

/-- A space-free non-operator token builds a childless node holding the
token. -/
theorem from_expression_leaf (t : Str) (h1 : ' ' ∉ t) (h2 : t ∉ opTokens) :
    from_expression t = Node.mk t none none := by
  rw [from_expression_eq, split_single_token t h1 h2]
  simp

/-- `Node::evaluate` satisfies exactly the recursion of the Rust source,
with the operand of each optional child given by `evalChild`. -/
theorem evaluate_unfold (M : FloatModel) (v : Str) (l r : Option Node) :
    (Node.mk v l r).evaluate M =
      (if (Node.mk v l r).has_children = false then
        parseLeaf M v
      else
        bindResult (evalChild M l) (fun x =>
        bindResult (evalChild M r) (fun y =>
          execute_operation M v x y))) := by
  cases l <;> cases r <;> rw [Node.evaluate.eq_def] <;> rfl

/-- Evaluation of a childless node parses the value. -/
theorem evaluate_leaf (M : FloatModel) (v : Str) :
    (Node.mk v none none).evaluate M = parseLeaf M v := by
  rw [evaluate_unfold]
  simp [Node.has_children]

/-- Evaluation of a node with at least one child: left operand (defaulting
to zero), then right operand (defaulting to zero), each short-circuiting on
error, then the operator application. -/
theorem evaluate_node (M : FloatModel) (v : Str) (l r : Option Node)
    (h : (Node.mk v l r).has_children = true) :
    (Node.mk v l r).evaluate M =
      bindResult (evalChild M l) (fun x =>
      bindResult (evalChild M r) (fun y =>
        execute_operation M v x y)) := by
  rw [evaluate_unfold, if_neg (by simp [h])]

/-- The recursion equation of `evaluateFuel` at a positive depth. -/
theorem evaluateFuel_succ (M : FloatModel) (f : Nat) (v : Str) (l r : Option Node) :
    evaluateFuel M (f + 1) (Node.mk v l r) =
      (if (Node.mk v l r).has_children = false then
        parseLeaf M v
      else
        bindResult (match l with
                    | none => RustResult.Ok M.zero
                    | some c => evaluateFuel M f c) (fun l_operand =>
        bindResult (match r with
                    | none => RustResult.Ok M.zero
                    | some c => evaluateFuel M f c) (fun r_operand =>
          execute_operation M v l_operand r_operand))) := rfl

/-- `evaluateFuel` computes `Node.evaluate` at any sufficient depth. -/
theorem evaluate_eq_fuel (M : FloatModel) : ∀ (f : Nat) (n : Node),
    sizeOf n ≤ f → n.evaluate M = evaluateFuel M f n := by
  intro f
  induction f with
  | zero =>
    intro n h
    obtain ⟨v, l, r⟩ := n
    simp at h
  | succ f ih =>
    intro n h
    obtain ⟨v, l, r⟩ := n
    simp only [Node.mk.sizeOf_spec] at h
    rw [evaluate_unfold, evaluateFuel_succ]
    by_cases hch : (Node.mk v l r).has_children = false
    · rw [if_pos hch, if_pos hch]
    · rw [if_neg hch, if_neg hch]
      cases l with
      | none =>
        cases r with
        | none => rfl
        | some c =>
          simp only [Option.some.sizeOf_spec] at h
          rw [show evalChild M (some c) = evaluateFuel M f c from ih c (by omega)]
          rfl
      | some c =>
        cases r with
        | none =>
          simp only [Option.some.sizeOf_spec] at h
          rw [show evalChild M (some c) = evaluateFuel M f c from ih c (by omega)]
          rfl
        | some c2 =>
          simp only [Option.some.sizeOf_spec] at h
          rw [show evalChild M (some c) = evaluateFuel M f c from ih c (by omega),
            show evalChild M (some c2) = evaluateFuel M f c2 from ih c2 (by omega)]

/-- A childless node renders as its value alone (no newline added). -/
theorem to_string_leaf (v : Str) : (Node.mk v none none).to_string = v := by
  rw [Node.to_string.eq_def]
  simp [Node.has_children]

/-- A node whose only child is the right one renders as its value and a
newline: the rendering code only looks at `l_child`, so the right child is
dropped entirely. -/
theorem to_string_right_only (v : Str) (rc : Node) :
    (Node.mk v none (some rc)).to_string = v ++ ['\n'] := by
  rw [Node.to_string.eq_def]
  simp [Node.has_children]

/-- A node whose only child is the left one renders as its value, a newline,
and the child block with the `` "`-- " ``/`"    "` prefixes. -/
theorem to_string_left_only (v : Str) (lc : Node) :
    (Node.mk v (some lc) none).to_string =
      (v ++ ['\n']) ++
        prefixLoop r_first_prefix r_rest_prefix (splitCh '\n' (rustTrimEnd lc.to_string)) := by
  rw [Node.to_string.eq_def]
  simp [Node.has_children]

/-- A node with both children renders as its value, a newline, the left
child block with the `"|-- "`/`"|   "` prefixes, then the right child block
with the `` "`-- " ``/`"    "` prefixes. -/
theorem to_string_both (v : Str) (lc rc : Node) :
    (Node.mk v (some lc) (some rc)).to_string =
      (v ++ ['\n']) ++
        prefixLoop l_first_prefix l_rest_prefix (splitCh '\n' (rustTrimEnd lc.to_string)) ++
        prefixLoop r_first_prefix r_rest_prefix (splitCh '\n' (rustTrimEnd rc.to_string)) := by
  rw [Node.to_string.eq_def]
  simp [Node.has_children]

/-- The recursion equation of `to_stringFuel` at a positive depth. -/
theorem to_stringFuel_succ (f : Nat) (v : Str) (l r : Option Node) :
    to_stringFuel (f + 1) (Node.mk v l r) =
      (let result := v ++ (if (Node.mk v l r).has_children then ['\n'] else [])
       match l with
       | some lc =>
         match r with
         | some rc =>
           result ++ prefixLoop l_first_prefix l_rest_prefix
                       (splitCh '\n' (rustTrimEnd (to_stringFuel f lc)))
                  ++ prefixLoop r_first_prefix r_rest_prefix
                       (splitCh '\n' (rustTrimEnd (to_stringFuel f rc)))
         | none =>
           result ++ prefixLoop r_first_prefix r_rest_prefix
                       (splitCh '\n' (rustTrimEnd (to_stringFuel f lc)))
       | none => result) := rfl

/-- `to_stringFuel` computes `Node.to_string` at any sufficient depth. -/
theorem to_string_eq_fuel : ∀ (f : Nat) (n : Node),
    sizeOf n ≤ f → n.to_string = to_stringFuel f n := by
  intro f
  induction f with
  | zero =>
    intro n h
    obtain ⟨v, l, r⟩ := n
    simp at h
  | succ f ih =>
    intro n h
    obtain ⟨v, l, r⟩ := n
    simp only [Node.mk.sizeOf_spec] at h
    rw [to_stringFuel_succ]
    cases l with
    | none =>
      cases r with
      | none =>
        rw [to_string_leaf]
        simp [Node.has_children]
      | some c =>
        rw [to_string_right_only]
        simp [Node.has_children]
    | some c =>
      cases r with
      | none =>
        simp only [Option.some.sizeOf_spec] at h
        rw [to_string_left_only, ih c (by omega)]
        simp [Node.has_children]
      | some c2 =>
        simp only [Option.some.sizeOf_spec] at h
        rw [to_string_both, ih c (by omega), ih c2 (by omega)]
        simp [Node.has_children]

theorem getD_prop {P : Str → Prop} : ∀ (ts : List Str) (i : Nat) (d : Str),
    (∀ t ∈ ts, P t) → P d → P (ts.getD i d)
  | [], i, d, _, hd => by simpa [List.getD] using hd
  | t :: ts, 0, d, hts, hd => by simpa using hts t (List.mem_cons_self _ _)
  | t :: ts, i + 1, d, hts, hd => by
    simpa using getD_prop ts i d (fun u hu => hts u (List.mem_cons_of_mem _ hu)) hd

/-- The value component returned by the splitter never contains a space
character (it is always one token of the space-split input). -/
theorem split_value_no_space (s : Str) :
    ' ' ∉ (split_on_lowest_priority_operator s).1 := by
  rw [split_on_lowest_priority_operator]
  simp only [has_no_operators_false, Bool.false_eq_true, if_false]
  have htokmem : ∀ t ∈ splitCh ' ' s, ' ' ∉ t := fun t ht =>
    not_mem_of_mem_splitCh ' ' s t ht
  have hgetD : ∀ i : Nat, ' ' ∉ (splitCh ' ' s).getD i [] := fun i =>
    getD_prop (splitCh ' ' s) i [] htokmem (by simp)
  by_cases h0 : scanTokens (splitCh ' ' s) 0 0 4 = 0
  · rw [if_pos h0]
    exact hgetD 0
  · rw [if_neg h0]
    by_cases hL : scanTokens (splitCh ' ' s) 0 0 4 = (splitCh ' ' s).length
    · rw [if_pos hL]
      exact hgetD _
    · rw [if_neg hL]
      exact hgetD _

/-- The scan skips any token that is not one of the five operator tokens. -/
theorem scanTokens_not_op (t : Str) (ts : List Str) (i best prio : Nat)
    (h : t ∉ opTokens) :
    scanTokens (t :: ts) i best prio = scanTokens ts (i + 1) best prio := by
  simp only [opTokens, List.mem_cons, List.not_mem_nil, or_false, not_or] at h
  obtain ⟨n1, n2, n3, n4, n5⟩ := h
  rw [scanTokens, if_neg (not_or.mpr ⟨n1, n2⟩), if_neg (not_or.mpr ⟨n3, n4⟩), if_neg n5]

/-- On the three tokens `[a, op, b]` with `a`, `b` non-operators and `op` an
operator, the scan selects index `1`. -/
theorem scanTokens_three (a op b : Str) (ha : a ∉ opTokens) (hb : b ∉ opTokens)
    (hop : op ∈ opTokens) : scanTokens [a, op, b] 0 0 4 = 1 := by
  rw [scanTokens_not_op a [op, b] 0 0 4 ha]
  simp only [opTokens, List.mem_cons, List.not_mem_nil, or_false] at hop
  rcases hop with rfl | rfl | rfl | rfl | rfl
  · rw [scanTokens, if_pos (Or.inl rfl)]
  · rw [scanTokens, if_pos (Or.inr rfl)]
  · rw [scanTokens, if_neg (by decide), if_pos (Or.inl rfl), if_pos (by omega),
      scanTokens_not_op b [] 2 1 2 hb]
    rfl
  · rw [scanTokens, if_neg (by decide), if_pos (Or.inr rfl), if_pos (by omega),
      scanTokens_not_op b [] 2 1 2 hb]
    rfl
  · rw [scanTokens, if_neg (by decide), if_neg (by decide), if_pos rfl, if_pos (by omega),
      scanTokens_not_op b [] 2 1 3 hb]
    rfl

/-- Each operator token is a single non-space character. -/
theorem opTokens_no_space (op : Str) (hop : op ∈ opTokens) : ' ' ∉ op := by
  simp only [opTokens, List.mem_cons, List.not_mem_nil, or_false] at hop
  rcases hop with rfl | rfl | rfl | rfl | rfl <;> decide

/-- On a three-token expression `a OP b` with `a`, `b` space-free
non-operator tokens and `OP` an operator token, the splitter returns
`(OP, a, b)`. -/
theorem split_three_tokens (a op b : Str)
    (ha1 : ' ' ∉ a) (ha2 : a ∉ opTokens)
    (hb1 : ' ' ∉ b) (hb2 : b ∉ opTokens)
    (hop : op ∈ opTokens) :
    split_on_lowest_priority_operator (a ++ ' ' :: (op ++ ' ' :: b)) = (op, a, b) := by
  have htoks : splitCh ' ' (a ++ ' ' :: (op ++ ' ' :: b)) = [a, op, b] := by
    rw [splitCh_append_cons ' ' a _ ha1, splitCh_append_cons ' ' op _ (opTokens_no_space op hop),
      splitCh_of_not_mem ' ' b hb1]
  rw [split_on_lowest_priority_operator]
  simp only [has_no_operators_false, Bool.false_eq_true, if_false, htoks,
    scanTokens_three a op b ha2 hb2 hop]
  norm_num [joinCh]

/-! ## The claims -/

/-- C3 (code_bug evidence): the specification says an expression containing
none of the five operator characters is returned unchanged by the splitter
as a leaf; in the code this never happens for multi-token expressions,
because `has_no_operators` always returns `false` — the operator list it
iterates over comes from `split("")`, which contains empty patterns that
every string contains.  On `"foo bar"` (no operator characters anywhere) the
spec-modelled character check holds, yet the splitter returns value `"foo"`
with right remainder `"bar"`, and the built node is not childless. -/
theorem claim3_code_bug :
    spec_has_no_operators "foo bar".toList = true ∧
    has_no_operators "foo bar".toList = false ∧
    split_on_lowest_priority_operator "foo bar".toList =
      ("foo".toList, [], "bar".toList) ∧
    (from_expression "foo bar".toList).value = "foo".toList ∧
    (from_expression "foo bar".toList).r_child.isSome = true ∧
    (∀ e : Str, has_no_operators e = false) :=
  ⟨by decide, by decide, by decide, by decide, by decide, has_no_operators_false⟩

/-- C10: every node of the tree built by `from_expression` — leaves included
— carries a value with no space character: the value is always a single
token of the space-tokenized input. -/
theorem claim10_value_single_token : ∀ s : Str, NoSpaceValues (from_expression s) := by
  suffices H : ∀ (n : Nat) (s : Str), s.length ≤ n → NoSpaceValues (from_expression s) by
    exact fun s => H s.length s (le_refl _)
  intro n
  induction n with
  | zero =>
    intro s hlen
    have hs : s = [] := List.length_eq_zero.mp (Nat.le_zero.mp hlen)
    subst hs
    have h0 : from_expression [] = Node.mk [] none none := rfl
    rw [h0]
    exact NoSpaceValues.mk _ _ _ (by simp) (by simp) (by simp)
  | succ n ih =>
    intro s hlen
    rw [from_expression_eq]
    have hsp := split_parts_shorter s
    have hval := split_value_no_space s
    set res := split_on_lowest_priority_operator s with hres
    obtain ⟨op, l, r⟩ := res
    simp only at hsp hval ⊢
    refine NoSpaceValues.mk op _ _ hval ?_ ?_
    · intro c hc
      by_cases h : l = []
      · rw [if_pos h] at hc
        exact absurd hc (by simp)
      · rw [if_neg h] at hc
        have hc2 : from_expression l = c := by
          injection hc
        rw [← hc2]
        have hshort := hsp.1 h
        exact ih l (by omega)
    · intro c hc
      by_cases h : r = []
      · rw [if_pos h] at hc
        exact absurd hc (by simp)
      · rw [if_neg h] at hc
        have hc2 : from_expression r = c := by
          injection hc
        rw [← hc2]
        have hshort := hsp.2 h
        exact ih r (by omega)

/-- A leaf whose value parses contributes exactly the parsed operand. -/
theorem evalChild_leaf_parsed (M : FloatModel) (v : Str) (x : M.F)
    (h : M.parse v = some x) :
    evalChild M (some (Node.mk v none none)) = RustResult.Ok x := by
  rw [evalChild, evaluate_leaf, parseLeaf, h]

/-- C1: for every two-operand expression `a OP b` (three single-space
separated tokens, `a` and `b` parseable operand tokens, `OP` one of the five
operators, and the right operand not `0.0` when dividing), building the tree
and evaluating succeeds and returns exactly the native result of applying
`OP` — `add`, `sub`, `mul`, `div`, or `powf` of the model. -/
theorem claim1_two_operand_correct (M : FloatModel) (a op b : Str) (x y : M.F)
    (ha0 : a ≠ []) (ha1 : ' ' ∉ a) (ha2 : a ∉ opTokens) (hpa : M.parse a = some x)
    (hb0 : b ≠ []) (hb1 : ' ' ∉ b) (hb2 : b ∉ opTokens) (hpb : M.parse b = some y)
    (hop : op ∈ opTokens) (hdiv : op = slashTok → M.eqZero y = false) :
    Node.evaluate M (from_expression (a ++ ' ' :: (op ++ ' ' :: b))) =
      .Ok (spec_nativeResult M op x y) := by
  rw [from_expression_eq, split_three_tokens a op b ha1 ha2 hb1 hb2 hop]
  show Node.evaluate M (Node.mk op
      (if a = [] then none else some (from_expression a))
      (if b = [] then none else some (from_expression b))) = _
  rw [if_neg ha0, if_neg hb0, from_expression_leaf a ha1 ha2, from_expression_leaf b hb1 hb2,
    evaluate_node M op _ _ (by simp [Node.has_children]),
    evalChild_leaf_parsed M a x hpa, evalChild_leaf_parsed M b y hpb]
  simp only [bindResult]
  simp only [opTokens, List.mem_cons, List.not_mem_nil, or_false] at hop
  rcases hop with rfl | rfl | rfl | rfl | rfl
  · simp [execute_operation, spec_nativeResult, plusTok, minusTok, starTok, slashTok, caretTok]
  · simp [execute_operation, spec_nativeResult, plusTok, minusTok, starTok, slashTok, caretTok]
  · simp [execute_operation, spec_nativeResult, plusTok, minusTok, starTok, slashTok, caretTok]
  · simp [execute_operation, spec_nativeResult, plusTok, minusTok, starTok, slashTok, caretTok, hdiv rfl]
  · simp [execute_operation, spec_nativeResult, plusTok, minusTok, starTok, slashTok, caretTok]

/-- Witness for C1 at the concrete input `"6 / 3"` in the integer model. -/
theorem claim1_witness :
    M0.parse "6".toList = some 6 ∧ M0.eqZero 3 = false ∧
    Node.evaluate M0 (from_expression "6 / 3".toList) =
      .Ok (spec_nativeResult M0 slashTok 6 3) := by
  refine ⟨by decide, by decide, ?_⟩
  have h : ("6 / 3".toList : Str) = "6".toList ++ ' ' :: (slashTok ++ ' ' :: "3".toList) := by
    decide
  rw [h]
  exact claim1_two_operand_correct M0 "6".toList slashTok "3".toList 6 3 (by decide) (by decide)
    (by decide) (by decide) (by decide) (by decide) (by decide) (by decide) (by decide)
    (fun _ => by decide)

/-- C2: the scan realizes the asymmetric selection policy (leftmost `+`/`-`
stops the scan; the first `*`/`/` wins while nothing of priority ≤ 2 is
selected; `^` is selected only while nothing is selected), and consequently
`"1 + 2 * 3"` has `+` at the root and evaluates as `1 + (2 * 3)` (`7` in the
integer model), and `"2 * 3 ^ 2"` has `*` at the root and evaluates as
`2 * (3 ^ 2)` (`18` in the integer model). -/
theorem claim2_scan_policy (M : FloatModel) :
    (∀ tokens : List Str, scanTokens tokens 0 0 4 = scanSpec tokens) ∧
    split_on_lowest_priority_operator "1 + 2 * 3".toList =
      (plusTok, "1".toList, "2 * 3".toList) ∧
    (from_expression "1 + 2 * 3".toList).value = plusTok ∧
    (∀ x1 x2 x3 : M.F, M.parse "1".toList = some x1 → M.parse "2".toList = some x2 →
      M.parse "3".toList = some x3 →
      Node.evaluate M (from_expression "1 + 2 * 3".toList) = .Ok (M.add x1 (M.mul x2 x3))) ∧
    Node.evaluate M0 (from_expression "1 + 2 * 3".toList) = .Ok 7 ∧
    split_on_lowest_priority_operator "2 * 3 ^ 2".toList =
      (starTok, "2".toList, "3 ^ 2".toList) ∧
    (from_expression "2 * 3 ^ 2".toList).value = starTok ∧
    (∀ x2 x3 xe : M.F, M.parse "2".toList = some x2 → M.parse "3".toList = some x3 →
      M.parse "2".toList = some xe →
      Node.evaluate M (from_expression "2 * 3 ^ 2".toList) = .Ok (M.mul x2 (M.powf x3 xe))) ∧
    Node.evaluate M0 (from_expression "2 * 3 ^ 2".toList) = .Ok 18 := by
  refine ⟨scanTokens_eq_scanSpec, by decide, by decide, ?_, ?_, by decide, by decide, ?_, ?_⟩
  · intro x1 x2 x3 h1 h2 h3
    have htree : from_expression "1 + 2 * 3".toList =
        Node.mk plusTok (some (Node.mk "1".toList none none))
          (some (Node.mk starTok (some (Node.mk "2".toList none none))
            (some (Node.mk "3".toList none none)))) := rfl
    rw [htree, evaluate_node M plusTok _ _ (by simp [Node.has_children]),
      evalChild_leaf_parsed M "1".toList x1 h1,
      show evalChild M (some (Node.mk starTok (some (Node.mk "2".toList none none))
          (some (Node.mk "3".toList none none)))) = RustResult.Ok (M.mul x2 x3) by
        rw [evalChild, evaluate_node M starTok _ _ (by simp [Node.has_children]),
          evalChild_leaf_parsed M "2".toList x2 h2,
          evalChild_leaf_parsed M "3".toList x3 h3]
        simp [bindResult, execute_operation, plusTok, minusTok, starTok, slashTok, caretTok]]
    simp [bindResult, execute_operation, plusTok, minusTok, starTok, slashTok, caretTok]
  · rw [evaluate_eq_fuel M0 100000 _ (by decide)]
    decide
  · intro x2 x3 xe h2 h3 he
    have htree : from_expression "2 * 3 ^ 2".toList =
        Node.mk starTok (some (Node.mk "2".toList none none))
          (some (Node.mk caretTok (some (Node.mk "3".toList none none))
            (some (Node.mk "2".toList none none)))) := rfl
    rw [htree, evaluate_node M starTok _ _ (by simp [Node.has_children]),
      evalChild_leaf_parsed M "2".toList x2 h2,
      show evalChild M (some (Node.mk caretTok (some (Node.mk "3".toList none none))
          (some (Node.mk "2".toList none none)))) = RustResult.Ok (M.powf x3 xe) by
        rw [evalChild, evaluate_node M caretTok _ _ (by simp [Node.has_children]),
          evalChild_leaf_parsed M "3".toList x3 h3,
          evalChild_leaf_parsed M "2".toList xe he]
        simp [bindResult, execute_operation, plusTok, minusTok, starTok, slashTok, caretTok]]
    simp [bindResult, execute_operation, plusTok, minusTok, starTok, slashTok, caretTok]
  · rw [evaluate_eq_fuel M0 100000 _ (by decide)]
    decide

/-- Witness for C2: the parse hypotheses hold concretely in the integer
model, and the general conjuncts compute `7` and `18` there. -/
theorem claim2_witness :
    M0.parse "1".toList = some 1 ∧ M0.parse "2".toList = some 2 ∧
    M0.parse "3".toList = some 3 ∧
    Node.evaluate M0 (from_expression "1 + 2 * 3".toList) = .Ok (M0.add 1 (M0.mul 2 3)) ∧
    Node.evaluate M0 (from_expression "2 * 3 ^ 2".toList) = .Ok (M0.mul 2 (M0.powf 3 2)) :=
  ⟨by decide, by decide, by decide,
    (claim2_scan_policy M0).2.2.2.1 1 2 3 (by decide) (by decide) (by decide),
    (claim2_scan_policy M0).2.2.2.2.2.2.2.1 2 3 2 (by decide) (by decide) (by decide)⟩

/-- C4 (counterexample): `"+ 2"` has its selected operator at token index 0,
construction succeeds with no left child — but evaluation also succeeds
(returning `0 + 2 = 2`), so the malformed input is *not* surfaced as an
evaluation error, contrary to the claim. -/
theorem claim4_counterexample :
    scanTokens (splitCh ' ' "+ 2".toList) 0 0 4 = 0 ∧
    (splitCh ' ' "+ 2".toList).getD 0 [] ∈ opTokens ∧
    split_on_lowest_priority_operator "+ 2".toList = (plusTok, [], "2".toList) ∧
    (from_expression "+ 2".toList).l_child.isNone = true ∧
    Node.evaluate M0 (from_expression "+ 2".toList) = .Ok 2 := by
  refine ⟨by decide, by decide, by decide, by decide, ?_⟩
  rw [evaluate_eq_fuel M0 100000 _ (by decide)]
  decide

/-- C4 (amended): for every expression whose selected operator sits at token
index 0, the splitter returns an empty left remainder, the constructed node
has no left child (construction is total, so no error can be raised there),
and evaluation substitutes `0.0` for the missing left operand; the malformed
input is not necessarily surfaced as an error. -/
theorem claim4_amended (M : FloatModel) (s : Str)
    (h0 : scanTokens (splitCh ' ' s) 0 0 4 = 0)
    (hop : (splitCh ' ' s).getD 0 [] ∈ opTokens) :
    (split_on_lowest_priority_operator s).2.1 = [] ∧
    (from_expression s).l_child = none ∧
    (from_expression s).value = (splitCh ' ' s).getD 0 [] ∧
    (∀ c : Node, (from_expression s).r_child = some c →
      Node.evaluate M (from_expression s) =
        bindResult (c.evaluate M) (fun y =>
          execute_operation M ((splitCh ' ' s).getD 0 []) M.zero y)) := by
  have hsplit : split_on_lowest_priority_operator s =
      ((splitCh ' ' s).getD 0 [], [], joinCh ' ' ((splitCh ' ' s).drop 1)) := by
    rw [split_on_lowest_priority_operator]
    simp only [has_no_operators_false, Bool.false_eq_true, if_false, h0, if_pos]
  have hfe : from_expression s = Node.mk ((splitCh ' ' s).getD 0 []) none
      (if joinCh ' ' ((splitCh ' ' s).drop 1) = [] then none
       else some (from_expression (joinCh ' ' ((splitCh ' ' s).drop 1)))) := by
    rw [from_expression_eq, hsplit]
    simp
  refine ⟨by rw [hsplit], by rw [hfe]; simp [Node.l_child], by rw [hfe]; simp [Node.value], ?_⟩
  intro c hc
  rw [hfe] at hc ⊢
  simp only [Node.r_child] at hc
  by_cases hr : joinCh ' ' ((splitCh ' ' s).drop 1) = []
  · rw [if_pos hr] at hc
    exact absurd hc (by simp)
  · rw [if_neg hr] at hc
    have hc2 : from_expression (joinCh ' ' ((splitCh ' ' s).drop 1)) = c := by
      injection hc
    rw [if_neg hr, hc2, evaluate_node M _ _ _ (by simp [Node.has_children])]
    simp [evalChild, bindResult]

/-- Witness for C4 (amended) at the concrete input `"+ 2"`. -/
theorem claim4_witness :
    (split_on_lowest_priority_operator "+ 2".toList).2.1 = [] ∧
    (from_expression "+ 2".toList).l_child = none :=
  ⟨(claim4_amended M0 "+ 2".toList (by decide) (by decide)).1,
    (claim4_amended M0 "+ 2".toList (by decide) (by decide)).2.1⟩

/-- C5: at a `/` node with at least one child whose operands evaluate
successfully, the result is `DivideByZero` exactly when the right operand is
zero under the `== 0.0` test, and the quotient otherwise; a missing right
child defaults to `0.0`, which is zero, so it always yields `DivideByZero`;
and `+`, `-`, `*` at such a node never produce an error. -/
theorem claim5_divide_by_zero (M : FloatModel) :
    (∀ (l r : Option Node) (x y : M.F),
      (Node.mk slashTok l r).has_children = true →
      evalChild M l = .Ok x → evalChild M r = .Ok y →
      ((Node.evaluate M (Node.mk slashTok l r) = .Err .DivideByZero ↔ M.eqZero y = true) ∧
       (M.eqZero y = false →
         Node.evaluate M (Node.mk slashTok l r) = .Ok (M.div x y)))) ∧
    (∀ (l : Option Node) (x : M.F),
      (Node.mk slashTok l none).has_children = true →
      evalChild M l = .Ok x →
      Node.evaluate M (Node.mk slashTok l none) = .Err .DivideByZero) ∧
    (∀ (v : Str) (l r : Option Node) (x y : M.F),
      v ∈ [plusTok, minusTok, starTok] →
      (Node.mk v l r).has_children = true →
      evalChild M l = .Ok x → evalChild M r = .Ok y →
      ∃ z : M.F, Node.evaluate M (Node.mk v l r) = .Ok z) := by
  refine ⟨?_, ?_, ?_⟩
  · intro l r x y hch hl hr
    rw [evaluate_node M slashTok l r hch, hl, hr]
    simp only [bindResult, execute_operation, plusTok, minusTok, starTok, slashTok, caretTok]
    norm_num
    cases heq : M.eqZero y <;> simp [heq]
  · intro l x hch hl
    rw [evaluate_node M slashTok l none hch, hl,
      show evalChild M none = RustResult.Ok M.zero from rfl]
    simp only [bindResult, execute_operation, plusTok, minusTok, starTok, slashTok, caretTok]
    norm_num [M.eqZero_zero]
    rw [if_neg (by decide : ¬('/' = '+')), if_neg (by decide : ¬('/' = '-')),
      if_neg (by decide : ¬('/' = '*'))]
  · intro v l r x y hv hch hl hr
    rw [evaluate_node M v l r hch, hl, hr]
    simp only [List.mem_cons, List.not_mem_nil, or_false] at hv
    rcases hv with rfl | rfl | rfl
    · exact ⟨M.add x y, by simp [bindResult, execute_operation, plusTok, minusTok]⟩
    · exact ⟨M.sub x y, by
        simp [bindResult, execute_operation, plusTok, minusTok]⟩
    · exact ⟨M.mul x y, by
        simp [bindResult, execute_operation, plusTok, minusTok, starTok]⟩

/-- Witness for C5: `"1 / 0"` yields `DivideByZero`, `"6 / 3"` divides, and
a `/` node with only a left child yields `DivideByZero`, concretely in the
integer model. -/
theorem claim5_witness :
    Node.evaluate M0 (Node.mk slashTok (some (Node.mk "1".toList none none))
      (some (Node.mk "0".toList none none))) = .Err .DivideByZero ∧
    Node.evaluate M0 (Node.mk slashTok (some (Node.mk "6".toList none none))
      (some (Node.mk "3".toList none none))) = .Ok (M0.div 6 3) ∧
    Node.evaluate M0 (Node.mk slashTok (some (Node.mk "1".toList none none)) none) =
      .Err .DivideByZero := by
  refine ⟨?_, ?_, ?_⟩
  · exact ((claim5_divide_by_zero M0).1 _ _ 1 0 (by decide)
      (evalChild_leaf_parsed M0 "1".toList 1 (by decide))
      (evalChild_leaf_parsed M0 "0".toList 0 (by decide))).1.mpr (by decide)
  · exact ((claim5_divide_by_zero M0).1 _ _ 6 3 (by decide)
      (evalChild_leaf_parsed M0 "6".toList 6 (by decide))
      (evalChild_leaf_parsed M0 "3".toList 3 (by decide))).2 (by decide)
  · exact (claim5_divide_by_zero M0).2.1 _ 1 (by decide)
      (evalChild_leaf_parsed M0 "1".toList 1 (by decide))

/-- C6: at a node with at least one child, the left operand is computed
first and its error is returned unchanged — the right child's result (even
a failing one) never affects it; when the left side succeeds, a right
child's error is returned unchanged. -/
theorem claim6_error_propagation (M : FloatModel) :
    (∀ (v : Str) (rc : Option Node) (c : Node) (e : NodeError),
      c.evaluate M = .Err e →
      Node.evaluate M (Node.mk v (some c) rc) = .Err e) ∧
    (∀ (v : Str) (lc : Option Node) (c : Node) (x : M.F) (e : NodeError),
      evalChild M lc = .Ok x →
      c.evaluate M = .Err e →
      Node.evaluate M (Node.mk v lc (some c)) = .Err e) := by
  constructor
  · intro v rc c e he
    rw [evaluate_node M v (some c) rc (by simp [Node.has_children]),
      show evalChild M (some c) = RustResult.Err e by simp [evalChild, he]]
    simp [bindResult]
  · intro v lc c x e hl he
    have hch : (Node.mk v lc (some c)).has_children = true := by
      cases lc <;> simp [Node.has_children]
    rw [evaluate_node M v lc (some c) hch, hl,
      show evalChild M (some c) = RustResult.Err e by simp [evalChild, he]]
    simp [bindResult]

/-- Witness for C6: a failing left child's error is returned even when the
right child also fails, and a failing right child's error is returned when
the left side succeeds, concretely in the integer model. -/
theorem claim6_witness :
    Node.evaluate M0 (Node.mk plusTok (some (Node.mk "x".toList none none))
      (some (Node.mk "y".toList none none))) = .Err (.InvalidExpression "x".toList) ∧
    Node.evaluate M0 (Node.mk plusTok (some (Node.mk "1".toList none none))
      (some (Node.mk "y".toList none none))) = .Err (.InvalidExpression "y".toList) := by
  constructor
  · exact (claim6_error_propagation M0).1 plusTok _ _ _ (by
      rw [evaluate_leaf, parseLeaf, show M0.parse "x".toList = none from by decide])
  · exact (claim6_error_propagation M0).2 plusTok _ _ 1 _
      (evalChild_leaf_parsed M0 "1".toList 1 (by decide))
      (by rw [evaluate_leaf, parseLeaf, show M0.parse "y".toList = none from by decide])

/-- C7: a childless node fails with `InvalidExpression` carrying its value
exactly when the value does not parse (and returns the parsed number
otherwise); a node with a child whose operands evaluate successfully but
whose value is none of the five operators fails with `InvalidExpression`
describing the triple `left-operand value right-operand`; and when neither
source condition occurs anywhere in a tree, evaluation never returns
`InvalidExpression`. -/
theorem claim7_invalid_expression (M : FloatModel) :
    (∀ v : Str, M.parse v = none →
      Node.evaluate M (Node.mk v none none) = .Err (.InvalidExpression v)) ∧
    (∀ (v : Str) (x : M.F), M.parse v = some x →
      Node.evaluate M (Node.mk v none none) = .Ok x) ∧
    (∀ (v : Str) (l r : Option Node) (x y : M.F),
      (Node.mk v l r).has_children = true →
      evalChild M l = .Ok x → evalChild M r = .Ok y →
      v ∉ opTokens →
      Node.evaluate M (Node.mk v l r) =
        .Err (.InvalidExpression (M.fmt x ++ ' ' :: (v ++ ' ' :: M.fmt y)))) ∧
    (∀ n : Node, WellFormed M n → ∀ m : Str,
      Node.evaluate M n ≠ .Err (.InvalidExpression m)) := by
  refine ⟨?_, ?_, ?_, ?_⟩
  · intro v hv
    rw [evaluate_leaf, parseLeaf, hv]
  · intro v x hv
    rw [evaluate_leaf, parseLeaf, hv]
  · intro v l r x y hch hl hr hv
    rw [evaluate_node M v l r hch, hl, hr]
    simp only [opTokens, List.mem_cons, List.not_mem_nil, or_false, not_or] at hv
    obtain ⟨n1, n2, n3, n4, n5⟩ := hv
    simp only [bindResult, execute_operation,
      if_neg n1, if_neg n2, if_neg n3, if_neg n4, if_neg n5]
  · intro n hwf
    induction hwf with
    | leaf v hv =>
      intro m
      rw [evaluate_leaf, parseLeaf]
      cases hp : M.parse v with
      | none => rw [hp] at hv; simp at hv
      | some x => simp
    | node v l r hne hop hlwf hrwf ihl ihr =>
      intro m
      have hch : (Node.mk v l r).has_children = true := by
        cases l with
        | none =>
          cases r with
          | none => exact absurd ⟨rfl, rfl⟩ hne
          | some c => simp [Node.has_children]
        | some c => simp [Node.has_children]
      rw [evaluate_node M v l r hch]
      cases hl : evalChild M l with
      | Err e =>
        simp only [bindResult]
        cases l with
        | none => simp [evalChild] at hl
        | some c =>
          simp only [evalChild] at hl
          cases e with
          | DivideByZero => simp
          | InvalidExpression mm => exact absurd hl (by simpa using ihl c rfl mm)
      | Ok x =>
        simp only [bindResult]
        cases hr : evalChild M r with
        | Err e =>
          simp only [bindResult]
          cases r with
          | none => simp [evalChild] at hr
          | some c =>
            simp only [evalChild] at hr
            cases e with
            | DivideByZero => simp
            | InvalidExpression mm => exact absurd hr (by simpa using ihr c rfl mm)
        | Ok y =>
          simp only [bindResult]
          simp only [opTokens, List.mem_cons, List.not_mem_nil, or_false] at hop
          rcases hop with rfl | rfl | rfl | rfl | rfl
          · simp [execute_operation, plusTok, minusTok, starTok, slashTok, caretTok]
          · simp [execute_operation, plusTok, minusTok, starTok, slashTok, caretTok]
          · simp [execute_operation, plusTok, minusTok, starTok, slashTok, caretTok]
          · simp only [execute_operation, plusTok, minusTok, starTok, slashTok, caretTok]
            norm_num
            cases heq : M.eqZero y <;> simp [heq]
          · simp [execute_operation, plusTok, minusTok, starTok, slashTok, caretTok]

/-- Witness for C7: an unparseable leaf, a non-operator internal node, and a
well-formed tree, concretely in the integer model. -/
theorem claim7_witness :
    Node.evaluate M0 (Node.mk "x".toList none none) =
      .Err (.InvalidExpression "x".toList) ∧
    Node.evaluate M0 (Node.mk "q".toList (some (Node.mk "1".toList none none))
      (some (Node.mk "2".toList none none))) = .Err (.InvalidExpression "1 q 2".toList) ∧
    Node.evaluate M0 (Node.mk plusTok (some (Node.mk "1".toList none none))
      (some (Node.mk "2".toList none none))) ≠
        .Err (.InvalidExpression "1 + 2".toList) := by
  refine ⟨?_, ?_, ?_⟩
  · exact (claim7_invalid_expression M0).1 "x".toList (by decide)
  · have h := (claim7_invalid_expression M0).2.2.1 "q".toList _ _ 1 2 (by decide)
      (evalChild_leaf_parsed M0 "1".toList 1 (by decide))
      (evalChild_leaf_parsed M0 "2".toList 2 (by decide)) (by decide)
    rw [h]
    decide
  · exact (claim7_invalid_expression M0).2.2.2 _
      (WellFormed.node plusTok _ _ (by simp) (by decide)
        (fun c hc => by cases hc; exact WellFormed.leaf _ (by decide))
        (fun c hc => by cases hc; exact WellFormed.leaf _ (by decide)))
      "1 + 2".toList

theorem prefixRest_eq_map (rest : Str) (rows : List Str) :
    prefixRest rest rows = (rows.map (fun row => rest ++ row ++ ['\n'])).flatten := by
  induction rows with
  | nil => rfl
  | cons r rs ih => simp [prefixRest, ih]

theorem prefixLoop_cons (first rest r0 : Str) (rs : List Str) :
    prefixLoop first rest (r0 :: rs) =
      (first ++ r0 ++ ['\n']) ++ (rs.map (fun row => rest ++ row ++ ['\n'])).flatten := by
  rw [prefixLoop, prefixRest_eq_map]
  simp

/-- The row-prefixing loop over a child's trimmed rows produces exactly the
specification's child block. -/
theorem prefixLoop_eq_childBlock (first rest : Str) (c : Node) :
    prefixLoop first rest (splitCh '\n' (rustTrimEnd c.to_string)) =
      spec_childBlock first rest c := by
  rw [show splitCh '\n' (rustTrimEnd c.to_string) =
      (splitChAux '\n' (rustTrimEnd c.to_string)).1 ::
        (splitChAux '\n' (rustTrimEnd c.to_string)).2 from rfl,
    prefixLoop_cons]
  rfl

theorem getLast?_append_newline (X Y : Str) (h : Y = [] ∨ Y.getLast? = some '\n') :
    (X ++ '\n' :: Y).getLast? = some '\n' := by
  rcases h with rfl | h
  · rw [List.getLast?_append_of_ne_nil X (by simp)]
    rfl
  · rw [List.getLast?_append_of_ne_nil X (by simp)]
    cases Y with
    | nil => simp at h
    | cons y ys => rw [List.getLast?_cons_cons]; exact h

theorem prefixRest_ends (rest : Str) (rows : List Str) :
    prefixRest rest rows = [] ∨ (prefixRest rest rows).getLast? = some '\n' := by
  induction rows with
  | nil => exact Or.inl rfl
  | cons r rs ih =>
    right
    rw [prefixRest, show rest ++ r ++ '\n' :: prefixRest rest rs =
      (rest ++ r) ++ '\n' :: prefixRest rest rs by simp]
    exact getLast?_append_newline _ _ ih

theorem prefixLoop_splitCh_getLast (first rest s : Str) :
    (prefixLoop first rest (splitCh '\n' s)).getLast? = some '\n' := by
  rw [show splitCh '\n' s = (splitChAux '\n' s).1 :: (splitChAux '\n' s).2 from rfl,
    prefixLoop, show first ++ (splitChAux '\n' s).1 ++ '\n' :: prefixRest rest (splitChAux '\n' s).2 =
      (first ++ (splitChAux '\n' s).1) ++ '\n' :: prefixRest rest (splitChAux '\n' s).2 by simp]
  exact getLast?_append_newline _ _ (prefixRest_ends _ _)

/-- Every rendering of a node with at least one child ends with a newline. -/
theorem to_string_ends_newline : ∀ n : Node, n.has_children = true →
    (n.to_string).getLast? = some '\n' := by
  intro n hch
  obtain ⟨v, l, r⟩ := n
  cases l with
  | none =>
    cases r with
    | none => simp [Node.has_children] at hch
    | some rc =>
      rw [to_string_right_only]
      exact getLast?_append_newline v [] (Or.inl rfl)
  | some lc =>
    have hblock : ∀ first rest : Str, ∀ s : Str,
        prefixLoop first rest (splitCh '\n' s) ≠ [] := by
      intro first rest s hnil
      have := prefixLoop_splitCh_getLast first rest s
      rw [hnil] at this
      simp at this
    cases r with
    | none =>
      rw [to_string_left_only, List.getLast?_append_of_ne_nil _ (hblock _ _ _)]
      exact prefixLoop_splitCh_getLast _ _ _
    | some rc =>
      rw [to_string_both, List.append_assoc,
        List.getLast?_append_of_ne_nil _ (by simp [hblock _ _ _]),
        List.getLast?_append_of_ne_nil _ (hblock _ _ _)]
      exact prefixLoop_splitCh_getLast _ _ _

/-- C8: a node with both children renders as its value, a newline, then the
left child's trimmed rows prefixed `"|-- "`/`"|   "`, then the right child's
trimmed rows prefixed `` "`-- " ``/`"    "` (each row newline-terminated);
renderings of nodes with children always end with a newline; and a childless
node renders as its bare value with no newline. -/
theorem claim8_render_two_children :
    (∀ (v : Str) (lc rc : Node),
      (Node.mk v (some lc) (some rc)).to_string =
        v ++ '\n' :: (spec_childBlock l_first_prefix l_rest_prefix lc ++
          spec_childBlock r_first_prefix r_rest_prefix rc)) ∧
    (∀ n : Node, n.has_children = true → (n.to_string).getLast? = some '\n') ∧
    (∀ v : Str, (Node.mk v none none).to_string = v) := by
  refine ⟨?_, to_string_ends_newline, fun v => to_string_leaf v⟩
  intro v lc rc
  rw [to_string_both, prefixLoop_eq_childBlock, prefixLoop_eq_childBlock]
  simp

/-- Witness for C8: the tree of `"1 + 2"` rendered concretely. -/
theorem claim8_witness :
    (Node.mk plusTok (some (Node.mk "1".toList none none))
        (some (Node.mk "2".toList none none))).to_string =
      plusTok ++ '\n' :: (spec_childBlock l_first_prefix l_rest_prefix (Node.mk "1".toList none none)
        ++ spec_childBlock r_first_prefix r_rest_prefix (Node.mk "2".toList none none)) ∧
    ((Node.mk plusTok (some (Node.mk "1".toList none none))
        (some (Node.mk "2".toList none none))).to_string).getLast? = some '\n' ∧
    (Node.mk "42".toList none none).to_string = "42".toList :=
  ⟨claim8_render_two_children.1 plusTok _ _,
    claim8_render_two_children.2.1 _ (by decide),
    claim8_render_two_children.2.2 "42".toList⟩

/-- C9 (counterexample): a node whose only child is the right one renders as
just its value and a newline — the child is not rendered at all and no
`` "`-- " `` marker is produced, contrary to the claim that either single
child gets the `` "`-- " ``/`"    "` prefixing. -/
theorem claim9_counterexample :
    (Node.mk plusTok none (some (Node.mk "2".toList none none))).to_string = "+\n".toList ∧
    ¬ List.IsInfix "`-- ".toList
      ((Node.mk plusTok none (some (Node.mk "2".toList none none))).to_string) := by
  constructor
  · rw [to_string_eq_fuel 100000 _ (by decide)]
    decide
  · rw [to_string_eq_fuel 100000 _ (by decide)]
    decide

/-- C9 (amended): a node whose only child is the *left* one renders as its
value, a newline, and that child's block with the `` "`-- " ``/`"    "`
prefixes; a node whose only child is the right one renders as its value and
a newline, with no child block at all. -/
theorem claim9_amended_single_child :
    (∀ (v : Str) (lc : Node),
      (Node.mk v (some lc) none).to_string =
        v ++ '\n' :: spec_childBlock r_first_prefix r_rest_prefix lc) ∧
    (∀ (v : Str) (rc : Node),
      (Node.mk v none (some rc)).to_string = v ++ ['\n']) := by
  constructor
  · intro v lc
    rw [to_string_left_only, prefixLoop_eq_childBlock]
    simp
  · exact to_string_right_only

end ExprParser
